import Mathlib

/-!
Verification development for the QCC entangler-ranking and ansatz-construction
pipeline of this repository (notebook `S3_Unitary_Ansatz`).  The notebook calls
`hf_occ`, `generate_QCC_gradient_groupings`, `get_QCC_entanglers`,
`construct_QMF_ansatz`, `construct_QCC_ansatz`, `init_qcc_params` and
`minimize_E_random_guesses` from a module `utility` whose source is not part of
the files available here; those operations are therefore modelled from the
specification, constrained by the outputs recorded in the notebook itself
(group magnitudes, selected entanglers, initial angles, variable counts).

Numeric conventions of the model:
* Hamiltonian coefficients are rationals (the repository's Hamiltonians are
  real linear combinations of Pauli strings; ℚ is the executable stand-in).
* The energy gradient of an entangler at the reference determinant is carried
  as its *square* `gradMagSq` (a rational), so that the cutoff test
  `cutoff ≤ |gradient|` becomes the exact rational test
  `cutoff ^ 2 ≤ gradMagSq`.
* The magnitude stored in a returned grouping is the gradient rounded to four
  decimal places, as in the recorded notebook output (the stored value printed
  for a grouping is `0.0371` while the optimizer reports the same gradient as
  `0.0371055603…`; similarly a grouping is printed as `0.0` under cutoff
  `1e-6`).  Rounding is modelled half-up.
-/

/-- Single-qubit Pauli operator. -/
inductive Pauli
  | I
  | X
  | Y
  | Z
deriving DecidableEq

/-- A Pauli string: position `q` in the list is the operator on qubit `q`. -/
abbrev PauliString := List Pauli

/-- A Hamiltonian: a list of (Pauli string, real coefficient) terms. -/
abbrev Ham := List (PauliString × ℚ)

/-- Does a Pauli factor toggle an occupation bit (`X` or `Y`)? -/
def isFlip : Pauli → Bool
  | Pauli.X => true
  | Pauli.Y => true
  | _ => false

/-- Is a Pauli factor a `Y`? -/
def isY : Pauli → Bool
  | Pauli.Y => true
  | _ => false

/-- Qubits on which a Pauli string acts with `X` or `Y` (its "flip set"):
these are the occupations that the string toggles on a determinant. -/
def flipIndicesAux : PauliString → ℕ → List ℕ
  | [], _ => []
  | p :: r, q => (cond (isFlip p) [q] []) ++ flipIndicesAux r (q + 1)

/-- Flip set of a Pauli string, counted from qubit 0. -/
def flipIndices (P : PauliString) : List ℕ :=
  flipIndicesAux P 0

/-- Number of `Y` factors in a Pauli string. -/
def countY (P : PauliString) : ℕ :=
  P.countP isY

/-- `(-1) ^ k` as a rational. -/
def sgn (k : ℕ) : ℚ :=
  if k % 2 = 0 then 1 else -1

/-- Exponent of `(-1)` in `⟨ref | Q | ref ⊕ flip Q⟩`: a `Y` on an unoccupied
reference qubit and a `Z` on an occupied one each contribute a sign. -/
def gradParity : PauliString → ℕ → List Bool → ℕ
  | [], _, _ => 0
  | p :: r, q, ref =>
      (match p with
        | Pauli.Y => if ref.getD q false then 0 else 1
        | Pauli.Z => if ref.getD q false then 1 else 0
        | _ => 0) + gradParity r (q + 1) ref

/-- Real part contributed by one Hamiltonian term to the reference matrix
element of the flip set `F` (terms with an even number of `Y`s). -/
def termRe (t : PauliString × ℚ) (ref : List Bool) (F : List ℕ) : ℚ :=
  if flipIndices t.1 = F ∧ countY t.1 % 2 = 0 then
    t.2 * sgn (countY t.1 / 2 + gradParity t.1 0 ref)
  else 0

/-- Imaginary part contributed by one Hamiltonian term to the reference matrix
element of the flip set `F` (terms with an odd number of `Y`s). -/
def termIm (t : PauliString × ℚ) (ref : List Bool) (F : List ℕ) : ℚ :=
  if flipIndices t.1 = F ∧ countY t.1 % 2 = 1 then
    t.2 * sgn (countY t.1 / 2 + gradParity t.1 0 ref)
  else 0

/-- Squared magnitude of the first-order energy gradient, at the reference
determinant `ref`, shared by every entangler whose flip set is `F`:
`|⟨ref| H |ref ⊕ F⟩|²`. -/
def gradMagSq (H : Ham) (ref : List Bool) (F : List ℕ) : ℚ :=
  (H.map fun t => termRe t ref F).sum ^ 2 + (H.map fun t => termIm t ref F).sum ^ 2

/-- `round (10000 * Real.sqrt q)` for a rational `q ≥ 0`, computed exactly:
the integer square root of `⌊10^8 q⌋`, bumped when the true root reaches the
next half. -/
def roundSqrt4 (q : ℚ) : ℕ :=
  let s := Nat.sqrt ⌊q * 100000000⌋₊
  if ((2 * s + 1) ^ 2 : ℚ) ≤ 400000000 * q then s + 1 else s

/-- Gradient magnitude rounded to four decimal places, from its square. -/
def roundMag4 (q : ℚ) : ℚ :=
  (roundSqrt4 q : ℚ) / 10000

/-- First-occurrence deduplication (keeps the input order of first visits). -/
def dedupFirst : List (List ℕ) → List (List ℕ)
  | [] => []
  | x :: xs => x :: dedupFirst (xs.filter fun y => decide (y ≠ x))
termination_by l => l.length
decreasing_by
  exact Nat.lt_succ_of_le (List.length_filter_le _ xs)

/-- Insert into a list sorted by non-increasing key. -/
def insertDescBy (key : List ℕ → ℚ) (x : List ℕ) : List (List ℕ) → List (List ℕ)
  | [] => [x]
  | y :: ys => if key y < key x then x :: y :: ys else y :: insertDescBy key x ys

/-- Insertion sort by non-increasing key. -/
def sortDescBy (key : List ℕ → ℚ) : List (List ℕ) → List (List ℕ)
  | [] => []
  | x :: xs => insertDescBy key x (sortDescBy key xs)

/-- The distinct non-empty flip sets of the Hamiltonian's terms, in order of
first appearance: the candidate direct-interaction sets of the QCC ranking. -/
def candidateFlips (H : Ham) : List (List ℕ) :=
  dedupFirst ((H.map fun t => flipIndices t.1).filter fun F => decide (F ≠ []))

/-- Candidate flip sets that survive the gradient cutoff, sorted by
non-increasing gradient magnitude. -/
def rankedFlips (H : Ham) (ref : List Bool) (cutoff : ℚ) : List (List ℕ) :=
  sortDescBy (gradMagSq H ref)
    ((candidateFlips H).filter fun F =>
      decide (cutoff ≤ 0) || decide (cutoff ^ 2 ≤ gradMagSq H ref F))

/-- Modelled from the spec: `generate_QCC_gradient_groupings` of the
repository's `utility` module, whose source is not among the available files.
For each candidate entangler grouping (a flip set of the Hamiltonian, standing
for the family of entanglers that share the degenerate gradient magnitude),
the first-order energy gradient at the reference determinant is computed;
groupings whose gradient magnitude falls below the cutoff are discarded and
the rest are sorted by descending magnitude.  Each returned pair carries the
grouping's gradient magnitude rounded to four decimal places, as in the
recorded notebook output.  The qubit count `n` does not influence the ranking.
-/
def generate_QCC_gradient_groupings (H : Ham) (n : ℕ) (ref : List Bool)
    (cutoff : ℚ) : List (List ℕ × ℚ) :=
  (rankedFlips H ref cutoff).map fun F => (F, roundMag4 (gradMagSq H ref F))

/-- The representative entangler of a flip-set grouping on `n` qubits: `X` on
every flip index except a single `Y` on the second one (on the first for a
singleton flip set), matching every selected entangler recorded in the
notebook (`X0 Y1 X2 X3`, `X0 Y3 X5 X6`, …). -/
def repEntangler (F : List ℕ) (n : ℕ) : PauliString :=
  (List.range n).map fun q =>
    if F.getD 1 (F.getD 0 n) = q then Pauli.Y
    else if q ∈ F then Pauli.X else Pauli.I

/-- Modelled from the spec: `get_QCC_entanglers` of the repository's `utility`
module, whose source is not among the available files.  Takes entanglers from
the highest-magnitude groupings first — one representative per grouping, as in
the recorded notebook output — until the requested count is reached or the
groupings are exhausted. -/
def get_QCC_entanglers (groupings : List (List ℕ × ℚ)) (k : ℕ) (n : ℕ) :
    List PauliString :=
  (groupings.take k).map fun g => repEntangler g.1 n

/-- Modelled from the spec: `hf_occ` of the repository's `utility` module,
whose source is not among the available files.  The Hartree-Fock reference
occupation: the first `ne` of `nq` spin-orbitals are occupied. -/
def hf_occ (nq ne : ℕ) : List Bool :=
  (List.range nq).map fun q => decide (q < ne)

/-- A variational parameter of the QCC ansatz: Euler angles `beta_q`,
`gamma_q` of the mean-field layer, amplitude `tau_i` of the `i`-th entangler. -/
inductive QVar
  | beta (q : ℕ)
  | gamma (q : ℕ)
  | tau (i : ℕ)
deriving DecidableEq

/-- A circuit gate: single-qubit `Ry`/`Rz` rotations and an exponentiated
Pauli string, each parametrized by a named variable. -/
inductive Gate
  | ry (q : ℕ) (v : QVar)
  | rz (q : ℕ) (v : QVar)
  | expPauli (P : PauliString) (v : QVar)
deriving DecidableEq

/-- Modelled from the spec: `construct_QMF_ansatz` of the repository's
`utility` module, whose source is not among the available files.  The
mean-field layer: for each qubit `q`, an `Ry(beta_q)` rotation followed by an
`Rz(gamma_q)` rotation. -/
def construct_QMF_ansatz (n : ℕ) : List Gate :=
  (List.range n).bind fun q => [Gate.ry q (QVar.beta q), Gate.rz q (QVar.gamma q)]

/-- Entangler gates with amplitudes numbered from `i`. -/
def qccGatesFrom : List PauliString → ℕ → List Gate
  | [], _ => []
  | P :: r, i => Gate.expPauli P (QVar.tau i) :: qccGatesFrom r (i + 1)

/-- Modelled from the spec: `construct_QCC_ansatz` of the repository's
`utility` module, whose source is not among the available files.  One
exponentiated-entangler gate per selected entangler, each with an independent
amplitude `tau_i`. -/
def construct_QCC_ansatz (ents : List PauliString) : List Gate :=
  qccGatesFrom ents 0

/-- The variable attached to a gate. -/
def gateVar : Gate → QVar
  | Gate.ry _ v => v
  | Gate.rz _ v => v
  | Gate.expPauli _ v => v

/-- The variational parameters exposed by a circuit, in gate order (the
`extract_variables` call of the notebook). -/
def extract_variables (U : List Gate) : List QVar :=
  U.map gateVar

/-- The mean-field variables `beta_0, gamma_0, …, beta_{n-1}, gamma_{n-1}`. -/
def mfVarList (n : ℕ) : List QVar :=
  (List.range n).bind fun q => [QVar.beta q, QVar.gamma q]

/-- The entangler amplitudes `tau_0, …, tau_{m-1}`. -/
def tauVarList (m : ℕ) : List QVar :=
  (List.range m).map QVar.tau

/-- Initial value of one variational parameter: `beta_q = π` on an occupied
reference qubit and `0` on an unoccupied one, `gamma_q = 0`, `tau_i = 0`. -/
noncomputable def initAngle (ref : List Bool) : QVar → ℝ
  | QVar.beta q => if ref.getD q false then Real.pi else 0
  | QVar.gamma _ => 0
  | QVar.tau _ => 0

/-- Modelled from the spec: `init_qcc_params` of the repository's `utility`
module, whose source is not among the available files.  The initial parameter
assignment for the composed ansatz, one value per extracted variable (no
heuristic amplitude is supplied anywhere in the notebook, so entangler
amplitudes start at zero). -/
noncomputable def init_qcc_params (ref : List Bool) (vars : List QVar) :
    List (QVar × ℝ) :=
  vars.map fun v => (v, initAngle ref v)

/-- Modelled from the spec: `minimize_E_random_guesses` of the repository's
`utility` module, whose source is not among the available files.  `E i` is the
final energy of the `i`-th optimization attempt (started from the `i`-th draw
of random initial parameters, randomness being an input of the model); the
attempts run sequentially and the running best is kept by scalar `min`. -/
def minimize_E_random_guesses (E : ℕ → ℚ) : ℕ → ℚ
  | 0 => 0
  | 1 => E 0
  | n + 2 => min (minimize_E_random_guesses E (n + 1)) (E (n + 1))

/-- The computational basis state `|b⟩` as an amplitude vector (indices are
occupation bit-patterns encoded as naturals, bit `q` = qubit `q`). -/
def basisState (b : ℕ) : ℕ → ℂ := fun i => if i = b then 1 else 0

/-- Action of a single-qubit Pauli operator on an amplitude vector. -/
noncomputable def applyP (p : Pauli) (q : ℕ) (ψ : ℕ → ℂ) : ℕ → ℂ :=
  match p with
  | Pauli.I => ψ
  | Pauli.X => fun i => ψ (i ^^^ 2 ^ q)
  | Pauli.Y => fun i =>
      if i.testBit q then Complex.I * ψ (i ^^^ 2 ^ q)
      else -(Complex.I * ψ (i ^^^ 2 ^ q))
  | Pauli.Z => fun i => if i.testBit q then -ψ i else ψ i

/-- Action of a Pauli string, factor by factor from qubit offset `q`. -/
noncomputable def applyPS : PauliString → ℕ → (ℕ → ℂ) → ℕ → ℂ
  | [], _, ψ => ψ
  | p :: r, q, ψ => applyPS r (q + 1) (applyP p q ψ)

/-- Action of a Pauli string on an amplitude vector. -/
noncomputable def applyPauliString (P : PauliString) (ψ : ℕ → ℂ) : ℕ → ℂ :=
  applyPS P 0 ψ

/-- Gate semantics under a parameter assignment `θ`.  Every gate is
`exp(-i θ/2 · G)` for an involutory generator `G`, hence acts as
`cos(θ/2)·1 - i sin(θ/2)·G`. -/
noncomputable def applyGate (θ : QVar → ℝ) : Gate → (ℕ → ℂ) → ℕ → ℂ
  | Gate.ry q v, ψ => fun i =>
      (Real.cos (θ v / 2) : ℂ) * ψ i -
        Complex.I * (Real.sin (θ v / 2) : ℂ) * applyP Pauli.Y q ψ i
  | Gate.rz q v, ψ => fun i =>
      (Real.cos (θ v / 2) : ℂ) * ψ i -
        Complex.I * (Real.sin (θ v / 2) : ℂ) * applyP Pauli.Z q ψ i
  | Gate.expPauli P v, ψ => fun i =>
      (Real.cos (θ v / 2) : ℂ) * ψ i -
        Complex.I * (Real.sin (θ v / 2) : ℂ) * applyPauliString P ψ i

/-- Run a circuit: apply its gates in order. -/
noncomputable def runCircuit (θ : QVar → ℝ) (U : List Gate) (ψ : ℕ → ℂ) : ℕ → ℂ :=
  U.foldl (fun φ g => applyGate θ g φ) ψ

/-- Energy `⟨ψ| H |ψ⟩` of an `n`-qubit state. -/
noncomputable def energyOf (n : ℕ) (H : Ham) (ψ : ℕ → ℂ) : ℂ :=
  (H.map fun t =>
    (t.2 : ℂ) * ∑ i ∈ Finset.range (2 ^ n),
      (starRingEnd ℂ) (ψ i) * applyPauliString t.1 ψ i).sum

/-- Diagonal sign `⟨ref| Q |ref⟩` of a flip-free Pauli string. -/
def diagSgn (Q : PauliString) (ref : List Bool) : ℚ :=
  sgn (gradParity Q 0 ref)

/-- The Hartree-Fock energy: the diagonal matrix element of the Hamiltonian at
the reference determinant. -/
def hfEnergy (H : Ham) (ref : List Bool) : ℚ :=
  (H.map fun t => if flipIndices t.1 = [] then t.2 * diagSgn t.1 ref else 0).sum

/-- Bit-pattern encoding of the first `n` reference occupations: bit `q` is
set exactly when qubit `q` is occupied. -/
def refIdx (ref : List Bool) : ℕ → ℕ
  | 0 => 0
  | n + 1 => refIdx ref n ^^^ (if ref.getD n false then 2 ^ n else 0)

/-- A one-term Hamiltonian whose only grouping has gradient magnitude
`2·10⁻⁵`: above the notebook cutoff `10⁻⁶`, yet stored as `0.0` after the
four-decimal rounding (as grouping 11 of the recorded H2O run). -/
def smallGradH : Ham := [([Pauli.Y, Pauli.Y], 1 / 50000)]

/-- Two non-interacting double excitations with identical coefficients: two
distinct groupings with exactly equal gradient magnitude (as groupings 2 and 3
of the recorded H2O run). -/
def degenerateH : Ham :=
  [([Pauli.X, Pauli.X], 1), ([Pauli.I, Pauli.I, Pauli.X, Pauli.X], 1)]

/-- Coefficient magnitude of the double-excitation block of the toy H2
Hamiltonian, fixed by the gradient recorded in the notebook
(`tau_0` step `0.2822100520133972 = 4·g`). -/
def h2ToyG : ℚ := 705525130033493 / 10 ^ 16

/-- Modelled from the spec: the "given toy Hamiltonian" of the regression
fixture (H2 in STO-3G at 2.5 Å, Jordan-Wigner encoded, 4 qubits), which the
notebook obtains from the external chemistry backend.  Only its
double-excitation block is listed: flip-free (`I`/`Z`-only) terms contribute
to no flip set and provably cannot affect the ranking, and the recorded
notebook output pins this block's coefficient magnitude via the gradient
`0.2822100520133972 = 4·g`.  The sign pattern is the standard Jordan-Wigner
one for a two-electron double excitation. -/
def h2ToyH : Ham :=
  [ ([Pauli.X, Pauli.X, Pauli.Y, Pauli.Y], h2ToyG),
    ([Pauli.Y, Pauli.Y, Pauli.X, Pauli.X], h2ToyG),
    ([Pauli.X, Pauli.Y, Pauli.Y, Pauli.X], -h2ToyG),
    ([Pauli.Y, Pauli.X, Pauli.X, Pauli.Y], -h2ToyG) ]

/-- Bit flipped by one Pauli factor at qubit `q`. -/
def maskP (p : Pauli) (q : ℕ) : ℕ :=
  cond (isFlip p) (2 ^ q) 0

/-- Phase contributed by one Pauli factor acting on the basis state `|b⟩`. -/
noncomputable def phaseP : Pauli → ℕ → ℕ → ℂ
  | Pauli.Y, q, b => if b.testBit q then -Complex.I else Complex.I
  | Pauli.Z, q, b => if b.testBit q then -1 else 1
  | _, _, _ => 1

/-- Bits flipped by a Pauli string starting at qubit offset `q`. -/
def psMask : PauliString → ℕ → ℕ
  | [], _ => 0
  | p :: r, q => maskP p q ^^^ psMask r (q + 1)

/-- Phase of a Pauli string acting on the basis state `|b⟩`. -/
noncomputable def psPhase : PauliString → ℕ → ℕ → ℂ
  | [], _, _ => 1
  | p :: r, q, b => phaseP p q b * psPhase r (q + 1) (b ^^^ maskP p q)

theorem mem_insertDescBy {key : List ℕ → ℚ} {x z : List ℕ} :
    ∀ {l : List (List ℕ)}, z ∈ insertDescBy key x l ↔ z = x ∨ z ∈ l := by
  intro l
  induction l with
  | nil => simp [insertDescBy]
  | cons y ys ih =>
      by_cases h : key y < key x
      · simp [insertDescBy, h]
      · simp only [insertDescBy, if_neg h, List.mem_cons, ih]
        tauto

theorem mem_sortDescBy {key : List ℕ → ℚ} {z : List ℕ} :
    ∀ {l : List (List ℕ)}, z ∈ sortDescBy key l ↔ z ∈ l := by
  intro l
  induction l with
  | nil => simp [sortDescBy]
  | cons y ys ih => simp [sortDescBy, mem_insertDescBy, ih]

theorem pairwise_insertDescBy {key : List ℕ → ℚ} {x : List ℕ}
    {l : List (List ℕ)} (h : l.Pairwise fun a b => key b ≤ key a) :
    (insertDescBy key x l).Pairwise fun a b => key b ≤ key a := by
  induction l with
  | nil => simp [insertDescBy]
  | cons y ys ih =>
      rcases List.pairwise_cons.1 h with ⟨hy, hys⟩
      by_cases hlt : key y < key x
      · rw [insertDescBy, if_pos hlt]
        refine List.pairwise_cons.2 ⟨?_, h⟩
        intro b hb
        rcases List.mem_cons.1 hb with rfl | hb
        · exact le_of_lt hlt
        · exact le_trans (hy b hb) (le_of_lt hlt)
      · rw [insertDescBy, if_neg hlt]
        refine List.pairwise_cons.2 ⟨?_, ih hys⟩
        intro b hb
        rcases mem_insertDescBy.1 hb with rfl | hb
        · exact le_of_not_lt hlt
        · exact hy b hb

theorem pairwise_sortDescBy (key : List ℕ → ℚ) (l : List (List ℕ)) :
    (sortDescBy key l).Pairwise fun a b => key b ≤ key a := by
  induction l with
  | nil => simp [sortDescBy]
  | cons y ys ih => exact pairwise_insertDescBy ih

theorem roundSqrt4_mono {a b : ℚ} (h : a ≤ b) : roundSqrt4 a ≤ roundSqrt4 b := by
  have hs : Nat.sqrt ⌊a * 100000000⌋₊ ≤ Nat.sqrt ⌊b * 100000000⌋₊ :=
    Nat.sqrt_le_sqrt (Nat.floor_mono (by nlinarith))
  rcases lt_or_eq_of_le hs with hlt | heq
  · rw [roundSqrt4, roundSqrt4]
    have h1 : (if ((2 * Nat.sqrt ⌊a * 100000000⌋₊ + 1) ^ 2 : ℚ) ≤ 400000000 * a then
        Nat.sqrt ⌊a * 100000000⌋₊ + 1 else Nat.sqrt ⌊a * 100000000⌋₊) ≤
        Nat.sqrt ⌊a * 100000000⌋₊ + 1 := by
      split <;> omega
    refine le_trans h1 (le_trans hlt ?_)
    split <;> omega
  · rw [roundSqrt4, roundSqrt4, ← heq]
    split
    · rename_i hc
      rw [if_pos (le_trans hc (by nlinarith))]
    · split <;> omega

theorem roundMag4_mono {a b : ℚ} (h : a ≤ b) : roundMag4 a ≤ roundMag4 b := by
  rw [roundMag4, roundMag4]
  have := roundSqrt4_mono h
  have hc : ((roundSqrt4 a : ℚ)) ≤ (roundSqrt4 b : ℚ) := by exact_mod_cast this
  linarith

/-- Everything returned by the ranking comes from a ranked flip set. -/
theorem mem_generate {H : Ham} {n : ℕ} {ref : List Bool} {cutoff : ℚ}
    {p : List ℕ × ℚ} (hp : p ∈ generate_QCC_gradient_groupings H n ref cutoff) :
    ∃ F ∈ rankedFlips H ref cutoff,
      p = (F, roundMag4 (gradMagSq H ref F)) := by
  rcases List.mem_map.1 hp with ⟨F, hF, rfl⟩
  exact ⟨F, hF, rfl⟩

/-- A ranked flip set passed the cutoff filter. -/
theorem rankedFlips_cutoff {H : Ham} {ref : List Bool} {cutoff : ℚ}
    (hpos : 0 < cutoff) {F : List ℕ} (hF : F ∈ rankedFlips H ref cutoff) :
    cutoff ^ 2 ≤ gradMagSq H ref F := by
  rw [rankedFlips, mem_sortDescBy] at hF
  rcases List.mem_filter.1 hF with ⟨-, hcond⟩
  rcases Bool.or_eq_true_iff.1 hcond with hle | hmag
  · exact absurd (of_decide_eq_true hle) (not_le.2 hpos)
  · exact of_decide_eq_true hmag

theorem candidateFlips_smallGradH : candidateFlips smallGradH = [[0, 1]] := by
  simp [candidateFlips, smallGradH, dedupFirst, flipIndices, flipIndicesAux, isFlip]

theorem gradMagSq_smallGradH :
    gradMagSq smallGradH [true, false] [0, 1] = 1 / 2500000000 := by
  norm_num [gradMagSq, smallGradH, termRe, termIm, flipIndices, flipIndicesAux,
    countY, isY, isFlip, List.countP, List.countP.go, gradParity, sgn]

theorem generate_smallGradH :
    generate_QCC_gradient_groupings smallGradH 2 [true, false] (1 / 1000000) =
      [([0, 1], 0)] := by
  have hranked : rankedFlips smallGradH [true, false] (1 / 1000000) = [[0, 1]] := by
    rw [rankedFlips, candidateFlips_smallGradH]
    rw [List.filter_cons_of_pos, List.filter_nil]
    · simp [sortDescBy, insertDescBy]
    · rw [Bool.or_eq_true, decide_eq_true_eq, decide_eq_true_eq, gradMagSq_smallGradH]
      norm_num
  rw [generate_QCC_gradient_groupings, hranked]
  rw [List.map_cons, List.map_nil, gradMagSq_smallGradH]
  have hfloor : ⌊((1:ℚ) / 2500000000) * 100000000⌋₊ = 0 := by
    rw [Nat.floor_eq_zero]; norm_num
  rw [roundMag4, roundSqrt4, hfloor]
  norm_num

theorem roundMag4_one : roundMag4 1 = 1 := by
  have hfloor : ⌊((1:ℚ)) * 100000000⌋₊ = 100000000 := by norm_num
  rw [roundMag4, roundSqrt4, hfloor]
  norm_num

theorem gradMagSq_degenerateH_left :
    gradMagSq degenerateH [] [0, 1] = 1 := by
  norm_num [gradMagSq, degenerateH, termRe, termIm, flipIndices, flipIndicesAux,
    countY, isY, isFlip, List.countP, List.countP.go, gradParity, sgn]

theorem gradMagSq_degenerateH_right :
    gradMagSq degenerateH [] [2, 3] = 1 := by
  norm_num [gradMagSq, degenerateH, termRe, termIm, flipIndices, flipIndicesAux,
    countY, isY, isFlip, List.countP, List.countP.go, gradParity, sgn]

theorem generate_degenerateH :
    generate_QCC_gradient_groupings degenerateH 4 [] 0 =
      [([2, 3], 1), ([0, 1], 1)] := by
  have hcand : candidateFlips degenerateH = [[0, 1], [2, 3]] := by
    simp [candidateFlips, degenerateH, dedupFirst, flipIndices, flipIndicesAux, isFlip]
  have hranked : rankedFlips degenerateH [] 0 = [[2, 3], [0, 1]] := by
    rw [rankedFlips, hcand]
    have hfilter : List.filter
        (fun F => decide ((0:ℚ) ≤ 0) || decide ((0:ℚ) ^ 2 ≤ gradMagSq degenerateH [] F))
        [[0, 1], [2, 3]] = [[0, 1], [2, 3]] := by
      simp
    rw [hfilter, sortDescBy, sortDescBy, sortDescBy, insertDescBy, insertDescBy]
    rw [gradMagSq_degenerateH_left, gradMagSq_degenerateH_right, if_neg (lt_irrefl 1)]
    rw [insertDescBy]
  rw [generate_QCC_gradient_groupings, hranked]
  rw [List.map_cons, List.map_cons, List.map_nil,
    gradMagSq_degenerateH_left, gradMagSq_degenerateH_right, roundMag4_one]

/-- C1, counterexample: with cutoff `10⁻⁶`, the ranking of `smallGradH` (whose
only grouping has exact gradient magnitude `2·10⁻⁵ ≥ 10⁻⁶`) returns a pair
whose stored magnitude is `0.0`, below the cutoff — the four-decimal rounding
of the stored magnitude falsifies the claim as stated, exactly as groupings 11
and 12 of the recorded H2O run (printed `0.0` under the same cutoff). -/
theorem claim1_returned_magnitude_below_cutoff :
    ¬ (∀ p ∈ generate_QCC_gradient_groupings smallGradH 2 [true, false]
        (1 / 1000000), (1 / 1000000 : ℚ) ≤ p.2) := by
  intro h
  have hmem : (([0, 1] : List ℕ), (0 : ℚ)) ∈
      generate_QCC_gradient_groupings smallGradH 2 [true, false] (1 / 1000000) := by
    rw [generate_smallGradH]; exact List.mem_singleton.2 rfl
  have := h _ hmem
  norm_num at this

/-- C1 (amended): every grouping returned by
`generate_QCC_gradient_groupings` comes from a flip set whose *exact* gradient
magnitude is at least the cutoff (the stored magnitude is that gradient
rounded to four decimal places and may display below the cutoff), and the
result is empty when every candidate grouping's gradient magnitude is below
the cutoff. -/
theorem claim1_amended_cutoff_filter (H : Ham) (n : ℕ) (ref : List Bool)
    (cutoff : ℚ) (hpos : 0 < cutoff) :
    (∀ p ∈ generate_QCC_gradient_groupings H n ref cutoff,
        ∃ F ∈ rankedFlips H ref cutoff,
          p = (F, roundMag4 (gradMagSq H ref F)) ∧
            cutoff ^ 2 ≤ gradMagSq H ref F) ∧
    ((∀ F ∈ candidateFlips H, gradMagSq H ref F < cutoff ^ 2) →
        generate_QCC_gradient_groupings H n ref cutoff = []) := by
  constructor
  · intro p hp
    rcases mem_generate hp with ⟨F, hF, rfl⟩
    exact ⟨F, hF, rfl, rankedFlips_cutoff hpos hF⟩
  · intro hall
    rw [generate_QCC_gradient_groupings, rankedFlips]
    have hfil : (candidateFlips H).filter (fun F =>
        decide (cutoff ≤ 0) || decide (cutoff ^ 2 ≤ gradMagSq H ref F)) = [] := by
      rw [List.filter_eq_nil_iff]
      intro F hF
      rw [Bool.or_eq_true, decide_eq_true_eq, decide_eq_true_eq]
      push_neg
      exact ⟨hpos, hall F hF⟩
    rw [hfil, sortDescBy, List.map_nil]

/-- C1 witness: with positive cutoff `1`, the single candidate grouping of
`smallGradH` has gradient magnitude below the cutoff, so the amended theorem
yields the empty ranking. -/
theorem claim1_amended_cutoff_filter_witness :
    generate_QCC_gradient_groupings smallGradH 2 [true, false] 1 = [] := by
  refine (claim1_amended_cutoff_filter smallGradH 2 [true, false] 1 zero_lt_one).2 ?_
  intro F hF
  rw [candidateFlips_smallGradH] at hF
  rw [List.mem_singleton.1 hF, gradMagSq_smallGradH]
  norm_num

/-- C2, counterexample: on `degenerateH` the ranking returns two *distinct*
groupings with exactly equal stored magnitude, so "no two distinct returned
groups carry equal magnitude" fails (exactly as groupings 2 and 3 of the
recorded H2O run, both of magnitude `0.0371`). -/
theorem claim2_distinct_groups_equal_magnitude :
    ¬ (generate_QCC_gradient_groupings degenerateH 4 [] 0).Pairwise
        (fun a b => a.2 ≠ b.2) := by
  rw [generate_degenerateH]
  intro h
  rcases List.pairwise_cons.1 h with ⟨hhead, -⟩
  exact hhead _ (List.mem_singleton.2 rfl) rfl

/-- C2 (amended): the list returned by `generate_QCC_gradient_groupings` is
sorted by non-increasing gradient magnitude; each grouping is one flip-set
family of entanglers (which share a degenerate gradient magnitude), and
distinct groupings may carry equal magnitude. -/
theorem claim2_amended_sorted_descending (H : Ham) (n : ℕ) (ref : List Bool)
    (cutoff : ℚ) :
    (generate_QCC_gradient_groupings H n ref cutoff).Pairwise
      (fun a b => b.2 ≤ a.2) := by
  rw [generate_QCC_gradient_groupings]
  refine List.Pairwise.map _ ?_ (pairwise_sortDescBy (gradMagSq H ref) _)
  intro a b hab
  exact roundMag4_mono hab

/-- C3: the selection returns exactly `min k (number of available groupings)`
entanglers, and a larger request extends a smaller one (entanglers are taken
from the highest-magnitude groupings first). -/
theorem claim3_selection_length_min (gs : List (List ℕ × ℚ)) (k j n : ℕ)
    (hkj : k ≤ j) :
    (get_QCC_entanglers gs k n).length = min k gs.length ∧
    ∃ t, get_QCC_entanglers gs j n = get_QCC_entanglers gs k n ++ t := by
  constructor
  · rw [get_QCC_entanglers, List.length_map, List.length_take]
  · refine ⟨((gs.drop k).take (j - k)).map fun g => repEntangler g.1 n, ?_⟩
    rw [get_QCC_entanglers, get_QCC_entanglers, ← List.map_append]
    have hj : gs.take j = gs.take k ++ (gs.drop k).take (j - k) := by
      have : j = k + (j - k) := by omega
      conv_lhs => rw [this]
      rw [List.take_add]
    rw [hj]

/-- C3 witness: a concrete two-grouping list, requests `1 ≤ 2`. -/
theorem claim3_selection_length_min_witness :
    (get_QCC_entanglers [([0, 1], (1 : ℚ)), ([2, 3], 1)] 1 4).length =
      min 1 ([([0, 1], (1 : ℚ)), ([2, 3], 1)] : List (List ℕ × ℚ)).length ∧
    ∃ t, get_QCC_entanglers [([0, 1], (1 : ℚ)), ([2, 3], 1)] 2 4 =
      get_QCC_entanglers [([0, 1], (1 : ℚ)), ([2, 3], 1)] 1 4 ++ t :=
  claim3_selection_length_min [([0, 1], (1 : ℚ)), ([2, 3], 1)] 1 2 4
    (by omega)

theorem countP_range_eq (m n : ℕ) :
    (List.range n).countP (fun q => decide (m = q)) = if m < n then 1 else 0 := by
  induction n with
  | zero => simp
  | succ n ih =>
      rw [List.range_succ, List.countP_append, ih]
      by_cases h : m = n
      · subst h
        simp [List.countP_cons, List.countP_nil, Nat.lt_irrefl, Nat.lt_succ_self]
      · simp only [List.countP_cons, List.countP_nil, decide_eq_true_eq, h,
          if_false, Nat.zero_add]
        split_ifs <;> omega

/-- The `Y` position of a representative entangler lies in its flip set. -/
theorem yspot_mem {F : List ℕ} (hne : F ≠ []) (n : ℕ) :
    F.getD 1 (F.getD 0 n) ∈ F := by
  match F, hne with
  | [a], _ => simp [List.getD]
  | a :: b :: r, _ => simp [List.getD]

/-- A representative entangler on a flip set inside the register carries
exactly one `Y`. -/
theorem countY_repEntangler {F : List ℕ} (hne : F ≠ [])
    {n : ℕ} (hFn : ∀ x ∈ F, x < n) :
    countY (repEntangler F n) = 1 := by
  set m := F.getD 1 (F.getD 0 n) with hm
  have hmF : m ∈ F := yspot_mem hne n
  have hmn : m < n := hFn m hmF
  rw [countY, repEntangler, List.countP_map]
  have : (List.range n).countP (isY ∘ fun q =>
      if F.getD 1 (F.getD 0 n) = q then Pauli.Y
      else if q ∈ F then Pauli.X else Pauli.I) =
      (List.range n).countP (fun q => decide (m = q)) := by
    refine List.countP_congr ?_
    intro q _
    simp only [Function.comp]
    by_cases h : m = q
    · have hcond : F.getD 1 (F.getD 0 n) = q := by rw [← hm]; exact h
      rw [if_pos hcond]
      simp [isY, h]
    · have hcond : ¬ (F.getD 1 (F.getD 0 n) = q) := by rw [← hm]; exact h
      rw [if_neg hcond]
      by_cases hq : q ∈ F <;> simp [hq, isY, h]
  rw [this, countP_range_eq, if_pos hmn]

theorem mem_dedupFirst {z : List ℕ} :
    ∀ {l : List (List ℕ)}, z ∈ dedupFirst l → z ∈ l := by
  intro l
  induction l using dedupFirst.induct with
  | case1 => simp [dedupFirst]
  | case2 x xs ih =>
      rw [dedupFirst]
      intro h
      rcases List.mem_cons.1 h with rfl | h
      · exact List.mem_cons_self _ _
      · exact List.mem_cons_of_mem _ (List.mem_of_mem_filter (ih h))

theorem mem_flipIndicesAux {x : ℕ} :
    ∀ {P : PauliString} {q : ℕ}, x ∈ flipIndicesAux P q → q ≤ x ∧ x < q + P.length := by
  intro P
  induction P with
  | nil => intro q h; simp [flipIndicesAux] at h
  | cons p r ih =>
      intro q h
      rw [flipIndicesAux, List.mem_append] at h
      rcases h with h | h
      · cases hp : isFlip p <;> rw [hp] at h <;> simp at h
        rcases h with rfl
        simp
      · rcases ih h with ⟨h1, h2⟩
        constructor
        · omega
        · simpa [Nat.add_comm, Nat.add_left_comm] using h2

theorem mem_candidateFlips {H : Ham} {F : List ℕ}
    (hF : F ∈ candidateFlips H) :
    F ≠ [] ∧ ∃ t ∈ H, F = flipIndices t.1 := by
  have h1 := mem_dedupFirst hF
  have h2 := List.mem_of_mem_filter h1
  have h3 : F ≠ [] := of_decide_eq_true ((List.mem_filter.1 h1).2)
  rcases List.mem_map.1 h2 with ⟨t, ht, rfl⟩
  exact ⟨h3, t, ht, rfl⟩

/-- C4 (amended): every entangler produced by the ranking/selection pipeline
is a Pauli string containing an *odd* number of `Y` operators. -/
theorem claim4_amended_odd_y (H : Ham) (n : ℕ) (ref : List Bool) (cutoff : ℚ)
    (k : ℕ) (hlen : ∀ t ∈ H, t.1.length ≤ n) :
    ∀ e ∈ get_QCC_entanglers (generate_QCC_gradient_groupings H n ref cutoff) k n,
      Odd (countY e) := by
  intro e he
  rw [get_QCC_entanglers] at he
  rcases List.mem_map.1 he with ⟨g, hg, rfl⟩
  have hg' : g ∈ generate_QCC_gradient_groupings H n ref cutoff :=
    List.mem_of_mem_take hg
  rcases mem_generate hg' with ⟨F, hF, rfl⟩
  have hcand : F ∈ candidateFlips H := by
    have := mem_sortDescBy.1 (by rw [rankedFlips] at hF; exact hF)
    exact List.mem_of_mem_filter this
  rcases mem_candidateFlips hcand with ⟨hne, t, ht, rfl⟩
  have hbound : ∀ x ∈ flipIndices t.1, x < n := by
    intro x hx
    have := (mem_flipIndicesAux (P := t.1) (q := 0) hx).2
    have hlt : x < t.1.length := by simpa using this
    exact lt_of_lt_of_le hlt (hlen t ht)
  rw [countY_repEntangler hne hbound]
  exact odd_one

/-- C4, counterexample: the selected entangler of the `degenerateH` ranking is
`I I X Y`, which contains an odd (not even) number of `Y` operators — exactly
as every selected entangler recorded in the notebook (`X0 Y1 X2 X3`, …). -/
theorem claim4_selected_entangler_even_y_false :
    ¬ (∀ e ∈ get_QCC_entanglers
        (generate_QCC_gradient_groupings degenerateH 4 [] 0) 1 4,
        Even (countY e)) := by
  rw [generate_degenerateH]
  intro h
  have hmem : [Pauli.I, Pauli.I, Pauli.X, Pauli.Y] ∈
      get_QCC_entanglers [([2, 3], 1), ([0, 1], 1)] 1 4 := by decide
  have := h _ hmem
  rw [show countY [Pauli.I, Pauli.I, Pauli.X, Pauli.Y] = 1 from rfl] at this
  exact absurd (Nat.even_iff.1 this) (by omega)

/-- C4 witness: the amended theorem applied to the concrete `degenerateH`
pipeline, whose selected entangler `I I X Y` has an odd `Y` count. -/
theorem claim4_amended_odd_y_witness :
    Odd (countY [Pauli.I, Pauli.I, Pauli.X, Pauli.Y]) :=
  claim4_amended_odd_y degenerateH 4 [] 0 1 (by decide)
    [Pauli.I, Pauli.I, Pauli.X, Pauli.Y]
    (by rw [generate_degenerateH]; decide)

/-- C7: for fixed inputs the ranking is deterministic — the model is a pure
function of the Hamiltonian, qubit count, reference occupation and cutoff, so
two calls on equal inputs return identical lists in identical order (the
Python original likewise has no mutable global state, randomness or
environment dependence in this pipeline). -/
theorem claim7_ranking_deterministic (H₁ H₂ : Ham) (n₁ n₂ : ℕ)
    (r₁ r₂ : List Bool) (c₁ c₂ : ℚ) (hH : H₁ = H₂) (hn : n₁ = n₂)
    (hr : r₁ = r₂) (hc : c₁ = c₂) :
    generate_QCC_gradient_groupings H₁ n₁ r₁ c₁ =
      generate_QCC_gradient_groupings H₂ n₂ r₂ c₂ := by
  subst hH; subst hn; subst hr; subst hc; rfl

/-- C7 witness: two calls on the recorded H2-like inputs agree. -/
theorem claim7_ranking_deterministic_witness :
    generate_QCC_gradient_groupings smallGradH 2 [true, false] 1 =
      generate_QCC_gradient_groupings smallGradH 2 [true, false] 1 :=
  claim7_ranking_deterministic smallGradH smallGradH 2 2 [true, false]
    [true, false] 1 1 rfl rfl rfl rfl

theorem hf_occ_4_2 : hf_occ 4 2 = [true, true, false, false] := by decide

theorem candidateFlips_h2ToyH : candidateFlips h2ToyH = [[0, 1, 2, 3]] := by
  simp [candidateFlips, h2ToyH, dedupFirst, flipIndices, flipIndicesAux, isFlip]

theorem gradMagSq_h2ToyH :
    gradMagSq h2ToyH (hf_occ 4 2) [0, 1, 2, 3] =
      497765709108777206359301781049 / 6250000000000000000000000000000 := by
  rw [hf_occ_4_2]
  norm_num [gradMagSq, h2ToyH, h2ToyG, termRe, termIm, flipIndices,
    flipIndicesAux, countY, isY, isFlip, List.countP, List.countP.go,
    gradParity, sgn]

theorem roundMag4_h2ToyH :
    roundMag4 (497765709108777206359301781049 / 6250000000000000000000000000000) =
      2822 / 10000 := by
  have hfloor : ⌊((497765709108777206359301781049 : ℚ) /
      6250000000000000000000000000000) * 100000000⌋₊ = 7964251 := by
    rw [Nat.floor_eq_iff (by norm_num)]
    norm_num
  rw [roundMag4, roundSqrt4, hfloor]
  norm_num

theorem generate_h2ToyH :
    generate_QCC_gradient_groupings h2ToyH 4 (hf_occ 4 2) (1 / 1000000) =
      [([0, 1, 2, 3], 2822 / 10000)] := by
  have hranked : rankedFlips h2ToyH (hf_occ 4 2) (1 / 1000000) = [[0, 1, 2, 3]] := by
    rw [rankedFlips, candidateFlips_h2ToyH]
    rw [List.filter_cons_of_pos, List.filter_nil]
    · simp [sortDescBy, insertDescBy]
    · rw [Bool.or_eq_true, decide_eq_true_eq, decide_eq_true_eq, gradMagSq_h2ToyH]
      norm_num
  rw [generate_QCC_gradient_groupings, hranked]
  rw [List.map_cons, List.map_nil, gradMagSq_h2ToyH, roundMag4_h2ToyH]

/-- C8: on the toy H2 fixture (reference occupation `(1,1,0,0)`, cutoff
`10⁻⁶`), ranking followed by selection of one entangler yields exactly the
Pauli string `X0 Y1 X2 X3`, and the single returned grouping carries the
stored gradient magnitude `0.2822` — matching the recorded notebook output. -/
theorem claim8_h2_regression :
    get_QCC_entanglers
        (generate_QCC_gradient_groupings h2ToyH 4 (hf_occ 4 2) (1 / 1000000)) 1 4 =
      [[Pauli.X, Pauli.Y, Pauli.X, Pauli.X]] ∧
    (generate_QCC_gradient_groupings h2ToyH 4 (hf_occ 4 2) (1 / 1000000)).map
        Prod.snd = [2822 / 10000] := by
  rw [generate_h2ToyH]
  constructor
  · decide
  · rfl

/-- C5: the initial parameter assignment gives every extracted variable its
prescribed starting value — `beta_q = π` exactly on occupied reference qubits
and `0` otherwise, `gamma_q = 0`, and every entangler amplitude `tau_i = 0`
(no heuristic amplitude is supplied anywhere in the notebook) — and assigns a
value to exactly the requested variables, in order. -/
theorem claim5_initial_parameters (ref : List Bool) (vars : List QVar) :
    (∀ p ∈ init_qcc_params ref vars,
      (∀ q, p.1 = QVar.beta q →
        p.2 = if ref.getD q false then Real.pi else 0) ∧
      (∀ q, p.1 = QVar.gamma q → p.2 = 0) ∧
      (∀ i, p.1 = QVar.tau i → p.2 = 0)) ∧
    (init_qcc_params ref vars).map Prod.fst = vars := by
  constructor
  · intro p hp
    rcases List.mem_map.1 hp with ⟨v, hv, rfl⟩
    refine ⟨?_, ?_, ?_⟩
    · rintro q rfl; rfl
    · rintro q rfl; rfl
    · rintro i rfl; rfl
  · rw [init_qcc_params, List.map_map]
    have hid : (Prod.fst ∘ fun v => (v, initAngle ref v)) = id := rfl
    rw [hid, List.map_id]

/-- C5 witness: the assignment for one qubit (occupied) and one entangler. -/
theorem claim5_initial_parameters_witness :
    (∀ p ∈ init_qcc_params [true] [QVar.beta 0, QVar.gamma 0, QVar.tau 0],
      (∀ q, p.1 = QVar.beta q →
        p.2 = if ([true] : List Bool).getD q false then Real.pi else 0) ∧
      (∀ q, p.1 = QVar.gamma q → p.2 = 0) ∧
      (∀ i, p.1 = QVar.tau i → p.2 = 0)) ∧
    (init_qcc_params [true] [QVar.beta 0, QVar.gamma 0, QVar.tau 0]).map
      Prod.fst = [QVar.beta 0, QVar.gamma 0, QVar.tau 0] :=
  claim5_initial_parameters [true] [QVar.beta 0, QVar.gamma 0, QVar.tau 0]

/-- C9: the random-restart loop returns the lowest of the `n ≥ 1` attempt
energies: it is a lower bound of every attempt and is attained by one of
them (attempts are sequential and selected by scalar `min`). -/
theorem claim9_random_restart_min (E : ℕ → ℚ) (n : ℕ) (hn : 1 ≤ n) :
    (∀ i < n, minimize_E_random_guesses E n ≤ E i) ∧
    (∃ i < n, minimize_E_random_guesses E n = E i) := by
  induction n with
  | zero => omega
  | succ m ih =>
      cases m with
      | zero =>
          constructor
          · intro i hi
            have : i = 0 := by omega
            subst this
            exact le_of_eq rfl
          · exact ⟨0, by omega, rfl⟩
      | succ k =>
          rcases ih (by omega) with ⟨ih1, ih2⟩
          rw [minimize_E_random_guesses]
          constructor
          · intro i hi
            by_cases h : i < k + 1
            · exact le_trans (min_le_left _ _) (ih1 i h)
            · have : i = k + 1 := by omega
              subst this
              exact min_le_right _ _
          · rcases le_total (minimize_E_random_guesses E (k + 1)) (E (k + 1)) with h | h
            · rcases ih2 with ⟨i, hi, heq⟩
              exact ⟨i, by omega, by rw [min_eq_left h, heq]⟩
            · exact ⟨k + 1, by omega, min_eq_right h⟩

/-- C9 witness: two attempts with energies `0` and `1`; the loop's result is a
lower bound of both and equals one of them. -/
theorem claim9_random_restart_min_witness :
    (∀ i : ℕ, i < 2 → minimize_E_random_guesses (fun i => (i : ℚ)) 2 ≤ (i : ℚ)) ∧
    (∃ i : ℕ, i < 2 ∧ minimize_E_random_guesses (fun i => (i : ℚ)) 2 = (i : ℚ)) :=
  claim9_random_restart_min (fun i => (i : ℚ)) 2 (by omega)

theorem construct_QMF_ansatz_succ (n : ℕ) :
    construct_QMF_ansatz (n + 1) = construct_QMF_ansatz n ++
      [Gate.ry n (QVar.beta n), Gate.rz n (QVar.gamma n)] := by
  simp [construct_QMF_ansatz, List.range_succ]

theorem mfVarList_succ (n : ℕ) :
    mfVarList (n + 1) = mfVarList n ++ [QVar.beta n, QVar.gamma n] := by
  simp [mfVarList, List.range_succ]

theorem extract_variables_mf (n : ℕ) :
    extract_variables (construct_QMF_ansatz n) = mfVarList n := by
  induction n with
  | zero => rfl
  | succ m ih =>
      rw [construct_QMF_ansatz_succ, mfVarList_succ, extract_variables,
        List.map_append, ← extract_variables, ih]
      rfl

theorem extract_variables_qccGatesFrom (ents : List PauliString) :
    ∀ i, (qccGatesFrom ents i).map gateVar =
      (List.range ents.length).map fun j => QVar.tau (i + j) := by
  induction ents with
  | nil => intro i; rfl
  | cons P r ih =>
      intro i
      rw [qccGatesFrom, List.map_cons, ih (i + 1)]
      rw [List.length_cons, List.range_succ_eq_map, List.map_cons, List.map_map]
      congr 1
      refine List.map_congr_left ?_
      intro j _
      show QVar.tau (i + 1 + j) = QVar.tau (i + (j + 1))
      congr 1
      omega

theorem extract_variables_qcc (ents : List PauliString) :
    extract_variables (construct_QCC_ansatz ents) = tauVarList ents.length := by
  rw [construct_QCC_ansatz, extract_variables, extract_variables_qccGatesFrom,
    tauVarList]
  refine List.map_congr_left ?_
  intro j _
  rw [Nat.zero_add]

theorem mfVarList_length (n : ℕ) : (mfVarList n).length = 2 * n := by
  induction n with
  | zero => rfl
  | succ m ih =>
      rw [mfVarList_succ, List.length_append, ih]
      rfl

theorem mem_mfVarList {v : QVar} {n : ℕ} (hv : v ∈ mfVarList n) :
    ∃ q < n, v = QVar.beta q ∨ v = QVar.gamma q := by
  induction n with
  | zero => simp [mfVarList] at hv
  | succ m ih =>
      rw [mfVarList_succ, List.mem_append] at hv
      rcases hv with hv | hv
      · rcases ih hv with ⟨q, hq, h⟩
        exact ⟨q, by omega, h⟩
      · rcases List.mem_cons.1 hv with rfl | hv
        · exact ⟨m, by omega, Or.inl rfl⟩
        · rcases List.mem_singleton.1 hv with rfl
          exact ⟨m, by omega, Or.inr rfl⟩

theorem nodup_mfVarList (n : ℕ) : (mfVarList n).Nodup := by
  induction n with
  | zero => simp [mfVarList]
  | succ m ih =>
      rw [mfVarList_succ]
      rw [List.nodup_append]
      refine ⟨ih, ?_, ?_⟩
      · simp
      · intro v hv hv'
        rcases mem_mfVarList hv with ⟨q, hq, hcase⟩
        have hm : v = QVar.beta m ∨ v = QVar.gamma m := by
          rcases List.mem_cons.1 hv' with h' | h'
          · exact Or.inl h'
          · exact Or.inr (List.mem_singleton.1 h')
        rcases hcase with rfl | rfl <;> rcases hm with h' | h' <;>
          cases h' <;> omega

theorem nodup_tauVarList (m : ℕ) : (tauVarList m).Nodup := by
  rw [tauVarList]
  refine List.Nodup.map ?_ (List.nodup_range m)
  intro a b h
  cases h
  rfl

/-- C10: the composed circuit `U_MF ++ U_ENT` on `n` qubits with `m` selected
entanglers exposes the variables `beta_0, gamma_0, …, beta_{n-1}, gamma_{n-1},
tau_0, …, tau_{m-1}` — exactly `2n + m` parameters, pairwise distinct
(independent), with the mean-field layer's variables preceding all entangler
amplitudes. -/
theorem claim10_parameter_count (n : ℕ) (ents : List PauliString) :
    extract_variables (construct_QMF_ansatz n ++ construct_QCC_ansatz ents) =
      mfVarList n ++ tauVarList ents.length ∧
    (extract_variables (construct_QMF_ansatz n ++ construct_QCC_ansatz ents)).length =
      2 * n + ents.length ∧
    (extract_variables (construct_QMF_ansatz n ++ construct_QCC_ansatz ents)).Nodup := by
  have hsplit : extract_variables (construct_QMF_ansatz n ++ construct_QCC_ansatz ents) =
      mfVarList n ++ tauVarList ents.length := by
    rw [extract_variables, List.map_append, ← extract_variables,
      ← extract_variables, extract_variables_mf, extract_variables_qcc]
  refine ⟨hsplit, ?_, ?_⟩
  · rw [hsplit, List.length_append, mfVarList_length]
    have h2 : (tauVarList ents.length).length = ents.length := by
      rw [tauVarList, List.length_map, List.length_range]
    omega
  · rw [hsplit, List.nodup_append]
    refine ⟨nodup_mfVarList n, nodup_tauVarList _, ?_⟩
    intro v hv hv'
    rcases mem_mfVarList hv with ⟨q, hq, rfl | rfl⟩ <;>
      rw [tauVarList, List.mem_map] at hv' <;>
        rcases hv' with ⟨j, hj, h'⟩ <;> cases h'

theorem testBit_refIdx (ref : List Bool) :
    ∀ n q, (refIdx ref n).testBit q = (decide (q < n) && ref.getD q false) := by
  intro n
  induction n with
  | zero =>
      intro q
      simp [refIdx, Nat.zero_testBit]
  | succ m ih =>
      intro q
      rw [refIdx, Nat.testBit_xor, ih]
      by_cases hq : q < m
      · have h1 : decide (q < m) = true := decide_eq_true hq
        have h2 : decide (q < m + 1) = true := decide_eq_true (by omega)
        have h3 : (if ref.getD m false then 2 ^ m else 0).testBit q = false := by
          split
          · rw [Nat.testBit_two_pow]
            exact decide_eq_false (by omega)
          · exact Nat.zero_testBit q
        rw [h1, h2, h3, Bool.xor_false]
      · by_cases hq' : q = m
        · subst hq'
          have h1 : decide (q < q) = true → False := by simp
          have h2 : decide (q < q + 1) = true := decide_eq_true (by omega)
          rw [decide_eq_false (by omega), h2, Bool.false_and, Bool.false_xor]
          cases hocc : ref.getD q false
          · simp
          · simp [Nat.testBit_two_pow]
        · have h1 : decide (q < m) = false := decide_eq_false hq
          have h2 : decide (q < m + 1) = false := decide_eq_false (by omega)
          have h3 : (if ref.getD m false then 2 ^ m else 0).testBit q = false := by
            split
            · rw [Nat.testBit_two_pow]
              exact decide_eq_false (by omega)
            · exact Nat.zero_testBit q
          rw [h1, h2, h3, Bool.xor_false]

theorem refIdx_lt (ref : List Bool) : ∀ n, refIdx ref n < 2 ^ n := by
  intro n
  induction n with
  | zero => simp [refIdx]
  | succ m ih =>
      rw [refIdx]
      have h1 : refIdx ref m < 2 ^ (m + 1) :=
        lt_of_lt_of_le ih (Nat.pow_le_pow_right (by omega) (by omega))
      have h2 : (if ref.getD m false then 2 ^ m else 0) < 2 ^ (m + 1) := by
        split
        · exact Nat.pow_lt_pow_right (by omega) (by omega)
        · exact Nat.pos_pow_of_pos _ (by omega)
      exact Nat.xor_lt_two_pow h1 h2

theorem testBit_refIdx_self (ref : List Bool) (n : ℕ) :
    (refIdx ref n).testBit n = false := by
  rw [testBit_refIdx]
  simp

theorem initAngle_beta (ref : List Bool) (q : ℕ) :
    initAngle ref (QVar.beta q) = if ref.getD q false then Real.pi else 0 := rfl

theorem initAngle_gamma (ref : List Bool) (q : ℕ) :
    initAngle ref (QVar.gamma q) = 0 := rfl

theorem initAngle_tau (ref : List Bool) (i : ℕ) :
    initAngle ref (QVar.tau i) = 0 := rfl

/-- Any of the three gate families acts trivially when its angle is zero. -/
theorem applyGate_angle_zero (θ : QVar → ℝ) (g : Gate)
    (h : θ (gateVar g) = 0) (ψ : ℕ → ℂ) : applyGate θ g ψ = ψ := by
  cases g with
  | ry q v =>
      funext i
      rw [applyGate]
      rw [gateVar] at h
      simp [h]
  | rz q v =>
      funext i
      rw [applyGate]
      rw [gateVar] at h
      simp [h]
  | expPauli P v =>
      funext i
      rw [applyGate]
      rw [gateVar] at h
      simp [h]

/-- `Ry(π)` on a qubit whose bit is clear flips that bit of a basis state. -/
theorem applyGate_ry_pi (θ : QVar → ℝ) (q : ℕ) (v : QVar) (b : ℕ)
    (h : θ v = Real.pi) (hb : b.testBit q = false) :
    applyGate θ (Gate.ry q v) (basisState b) = basisState (b ^^^ 2 ^ q) := by
  funext i
  rw [applyGate, h]
  rw [show Real.pi / 2 = Real.pi / 2 from rfl]
  rw [Real.cos_pi_div_two, Real.sin_pi_div_two]
  by_cases hi : i = b ^^^ 2 ^ q
  · subst hi
    have h1 : b ^^^ 2 ^ q ^^^ 2 ^ q = b := Nat.xor_cancel_right _ _
    have h2 : (b ^^^ 2 ^ q).testBit q = true := by
      rw [Nat.testBit_xor, hb, Nat.testBit_two_pow]
      simp
    simp [applyP, basisState, h1, h2, Complex.I_mul_I]
  · have h2 : ¬ (i ^^^ 2 ^ q = b) := by
      intro hcon
      apply hi
      rw [← hcon, Nat.xor_cancel_right]
    simp [applyP, basisState, h2, hi]

theorem runCircuit_append (θ : QVar → ℝ) (U₁ U₂ : List Gate) (ψ : ℕ → ℂ) :
    runCircuit θ (U₁ ++ U₂) ψ = runCircuit θ U₂ (runCircuit θ U₁ ψ) := by
  rw [runCircuit, runCircuit, runCircuit, List.foldl_append]

/-- Entangler gates act trivially when every amplitude is zero. -/
theorem runCircuit_qccGates_zero (θ : QVar → ℝ)
    (hθ : ∀ j, θ (QVar.tau j) = 0) :
    ∀ (ents : List PauliString) (i : ℕ) (ψ : ℕ → ℂ),
      runCircuit θ (qccGatesFrom ents i) ψ = ψ := by
  intro ents
  induction ents with
  | nil => intro i ψ; rfl
  | cons P r ih =>
      intro i ψ
      rw [qccGatesFrom]
      show runCircuit θ (Gate.expPauli P (QVar.tau i) :: qccGatesFrom r (i + 1)) ψ = ψ
      rw [show (Gate.expPauli P (QVar.tau i) :: qccGatesFrom r (i + 1) : List Gate) =
        [Gate.expPauli P (QVar.tau i)] ++ qccGatesFrom r (i + 1) from rfl]
      rw [runCircuit_append]
      have h1 : runCircuit θ [Gate.expPauli P (QVar.tau i)] ψ = ψ := by
        show applyGate θ (Gate.expPauli P (QVar.tau i)) ψ = ψ
        exact applyGate_angle_zero θ (Gate.expPauli P (QVar.tau i)) (hθ i) ψ
      rw [h1, ih]

/-- The mean-field layer at the initial angles prepares the reference
bit-pattern from the vacuum. -/
theorem runCircuit_mf_prepares (ref : List Bool) :
    ∀ n, runCircuit (initAngle ref) (construct_QMF_ansatz n) (basisState 0) =
      basisState (refIdx ref n) := by
  intro n
  induction n with
  | zero => rfl
  | succ m ih =>
      rw [construct_QMF_ansatz_succ, runCircuit_append, ih]
      show applyGate (initAngle ref) (Gate.rz m (QVar.gamma m))
        (applyGate (initAngle ref) (Gate.ry m (QVar.beta m))
          (basisState (refIdx ref m))) = basisState (refIdx ref (m + 1))
      have hrz : ∀ ψ, applyGate (initAngle ref) (Gate.rz m (QVar.gamma m)) ψ = ψ :=
        fun ψ => applyGate_angle_zero _ (Gate.rz m (QVar.gamma m)) rfl ψ
      rw [hrz]
      cases hocc : ref.getD m false
      · have hry : applyGate (initAngle ref) (Gate.ry m (QVar.beta m))
            (basisState (refIdx ref m)) = basisState (refIdx ref m) := by
          refine applyGate_angle_zero _ (Gate.ry m (QVar.beta m)) ?_ _
          show initAngle ref (QVar.beta m) = 0
          rw [initAngle_beta, hocc]
          simp
        rw [hry, refIdx, hocc]
        simp
      · have hry : applyGate (initAngle ref) (Gate.ry m (QVar.beta m))
            (basisState (refIdx ref m)) = basisState (refIdx ref m ^^^ 2 ^ m) := by
          refine applyGate_ry_pi _ _ _ _ ?_ (testBit_refIdx_self ref m)
          show initAngle ref (QVar.beta m) = Real.pi
          rw [initAngle_beta, hocc]
          simp
        rw [hry, refIdx, hocc]
        simp

theorem applyP_smul (p : Pauli) (q : ℕ) (c : ℂ) (ψ : ℕ → ℂ) :
    applyP p q (fun i => c * ψ i) = fun i => c * applyP p q ψ i := by
  cases p <;> funext i <;> simp [applyP] <;> split <;> ring

theorem applyP_basis (p : Pauli) (q : ℕ) (b : ℕ) :
    applyP p q (basisState b) =
      fun i => phaseP p q b * basisState (b ^^^ maskP p q) i := by
  cases p with
  | I =>
      funext i
      simp [applyP, phaseP, maskP, isFlip, Nat.xor_zero]
  | X =>
      funext i
      by_cases hi : i = b ^^^ 2 ^ q
      · subst hi
        have h1 : b ^^^ 2 ^ q ^^^ 2 ^ q = b := Nat.xor_cancel_right _ _
        simp [applyP, phaseP, maskP, isFlip, basisState, h1]
      · have h2 : ¬ (i ^^^ 2 ^ q = b) := by
          intro hcon
          exact hi (by rw [← hcon, Nat.xor_cancel_right])
        simp [applyP, phaseP, maskP, isFlip, basisState, h2, hi]
  | Y =>
      funext i
      by_cases hi : i = b ^^^ 2 ^ q
      · subst hi
        have h1 : b ^^^ 2 ^ q ^^^ 2 ^ q = b := Nat.xor_cancel_right _ _
        have h2 : (b ^^^ 2 ^ q).testBit q = !(b.testBit q) := by
          rw [Nat.testBit_xor, Nat.testBit_two_pow]
          cases b.testBit q <;> simp
        cases htb : b.testBit q <;>
          simp [applyP, phaseP, maskP, isFlip, basisState, h1, h2, htb]
      · have h2 : ¬ (i ^^^ 2 ^ q = b) := by
          intro hcon
          exact hi (by rw [← hcon, Nat.xor_cancel_right])
        cases htb : b.testBit q <;>
          simp [applyP, phaseP, maskP, isFlip, basisState, h2, hi]
  | Z =>
      funext i
      by_cases hi : i = b
      · subst hi
        cases htb : i.testBit q <;>
          simp [applyP, phaseP, maskP, isFlip, basisState, htb, Nat.xor_zero]
      · cases htb : i.testBit q <;>
          simp [applyP, phaseP, maskP, isFlip, basisState, htb, hi, Nat.xor_zero]

theorem applyPS_smul (P : PauliString) :
    ∀ (q : ℕ) (c : ℂ) (ψ : ℕ → ℂ),
      applyPS P q (fun i => c * ψ i) = fun i => c * applyPS P q ψ i := by
  induction P with
  | nil => intro q c ψ; rfl
  | cons p r ih =>
      intro q c ψ
      rw [applyPS, applyPS, applyP_smul, ih]

theorem applyPS_basis (P : PauliString) :
    ∀ (q : ℕ) (b : ℕ),
      applyPS P q (basisState b) =
        fun i => psPhase P q b * basisState (b ^^^ psMask P q) i := by
  induction P with
  | nil =>
      intro q b
      funext i
      simp [applyPS, psPhase, psMask, Nat.xor_zero]
  | cons p r ih =>
      intro q b
      rw [applyPS, applyP_basis, applyPS_smul, ih]
      funext i
      rw [psPhase, psMask, mul_assoc, Nat.xor_assoc]

theorem applyPauliString_basis (P : PauliString) (b : ℕ) :
    applyPauliString P (basisState b) =
      fun i => psPhase P 0 b * basisState (b ^^^ psMask P 0) i := by
  rw [applyPauliString, applyPS_basis]

theorem testBit_psMask_low (P : PauliString) :
    ∀ (s j : ℕ), j < s → (psMask P s).testBit j = false := by
  induction P with
  | nil => intro s j _; exact Nat.zero_testBit j
  | cons p r ih =>
      intro s j hj
      rw [psMask, Nat.testBit_xor]
      have h1 : (maskP p s).testBit j = false := by
        rw [maskP]
        cases isFlip p
        · exact Nat.zero_testBit j
        · rw [cond_true, Nat.testBit_two_pow]
          exact decide_eq_false (by omega)
      rw [h1, ih (s + 1) j (by omega), Bool.xor_false]

theorem psMask_eq_zero_iff (P : PauliString) :
    ∀ q : ℕ, psMask P q = 0 ↔ flipIndicesAux P q = [] := by
  induction P with
  | nil => intro q; simp [psMask, flipIndicesAux]
  | cons p r ih =>
      intro q
      rw [psMask, flipIndicesAux, maskP]
      cases hp : isFlip p
      · rw [cond_false, Nat.zero_xor]
        simpa using ih (q + 1)
      · rw [cond_true]
        refine iff_of_false ?_ (by simp)
        intro hcon
        have h1 : (2 ^ q : ℕ) = psMask r (q + 1) := Nat.xor_eq_zero.1 hcon
        have h2 : (psMask r (q + 1)).testBit q = false :=
          testBit_psMask_low r (q + 1) q (by omega)
        rw [← h1, Nat.testBit_two_pow] at h2
        simp at h2

theorem sgn_add (a b : ℕ) : sgn (a + b) = sgn a * sgn b := by
  rw [sgn, sgn, sgn]
  by_cases ha : a % 2 = 0 <;> by_cases hb : b % 2 = 0
  · have h : (a + b) % 2 = 0 := by omega
    rw [if_pos h, if_pos ha, if_pos hb]; ring
  · have h : (a + b) % 2 ≠ 0 := by omega
    rw [if_neg h, if_pos ha, if_neg hb]; ring
  · have h : (a + b) % 2 ≠ 0 := by omega
    rw [if_neg h, if_neg ha, if_pos hb]; ring
  · have h : (a + b) % 2 = 0 := by omega
    rw [if_pos h, if_neg ha, if_neg hb]; ring

/-- On a basis state matching the reference occupation, a flip-free Pauli
string contributes exactly its diagonal sign. -/
theorem psPhase_diag (ref : List Bool) (b : ℕ)
    (hb : ∀ j, b.testBit j = ref.getD j false) :
    ∀ (Q : PauliString) (q : ℕ), flipIndicesAux Q q = [] →
      psPhase Q q b = ((sgn (gradParity Q q ref) : ℚ) : ℂ) := by
  intro Q
  induction Q with
  | nil =>
      intro q _
      simp [psPhase, gradParity, sgn]
  | cons p r ih =>
      intro q hflip
      rw [flipIndicesAux] at hflip
      have hp : isFlip p = false := by
        cases hp : isFlip p
        · rfl
        · rw [hp] at hflip
          simp at hflip
      have hrest : flipIndicesAux r (q + 1) = [] := by
        rw [hp] at hflip
        simpa using hflip
      have hmask : maskP p q = 0 := by rw [maskP, hp, cond_false]
      cases p with
      | I =>
          have hg : gradParity (Pauli.I :: r) q ref = 0 + gradParity r (q + 1) ref := rfl
          rw [psPhase, hmask, Nat.xor_zero, ih (q + 1) hrest, hg, Nat.zero_add]
          rw [show (phaseP Pauli.I q b) = 1 from rfl, one_mul]
      | X => simp [isFlip] at hp
      | Y => simp [isFlip] at hp
      | Z =>
          have hg : gradParity (Pauli.Z :: r) q ref =
              (if ref.getD q false then 1 else 0) + gradParity r (q + 1) ref := rfl
          rw [psPhase, hmask, Nat.xor_zero, ih (q + 1) hrest, hg, sgn_add]
          rw [show (phaseP Pauli.Z q b) = if b.testBit q then -1 else 1 from rfl, hb q]
          cases hocc : ref.getD q false
          · simp [sgn]
          · simp [sgn]
            split <;> norm_num

theorem xor_eq_self_iff {b m : ℕ} : b ^^^ m = b ↔ m = 0 := by
  constructor
  · intro h
    have h1 : b ^^^ (b ^^^ m) = b ^^^ b := congrArg (fun x => b ^^^ x) h
    rw [Nat.xor_cancel_left, Nat.xor_self] at h1
    exact h1
  · intro h
    rw [h, Nat.xor_zero]

/-- Energy of a basis state: only flip-free terms contribute, each with its
diagonal phase. -/
theorem energyOf_basis (n : ℕ) (H : Ham) (b : ℕ) (hb : b < 2 ^ n) :
    energyOf n H (basisState b) =
      (H.map fun t => (t.2 : ℂ) *
        (if psMask t.1 0 = 0 then psPhase t.1 0 b else 0)).sum := by
  rw [energyOf]
  congr 1
  refine List.map_congr_left ?_
  intro t _
  congr 1
  rw [applyPauliString_basis]
  rw [Finset.sum_eq_single_of_mem b (Finset.mem_range.2 hb) ?side]
  case side =>
    intro i _ hib
    have : basisState b i = 0 := by rw [basisState, if_neg hib]
    rw [this]
    simp
  by_cases hm : psMask t.1 0 = 0
  · rw [if_pos hm, hm, Nat.xor_zero]
    simp [basisState]
  · rw [if_neg hm]
    have h2 : ¬ (b = b ^^^ psMask t.1 0) := by
      intro hcon
      exact hm (xor_eq_self_iff.1 hcon.symm)
    simp [basisState, h2]

/-- C6: at the initial parameters (entangler amplitudes all zero), the
composed QCC ansatz maps the vacuum to the basis state whose bits are exactly
the reference occupation, and the energy of that state is the Hartree-Fock
energy (the diagonal matrix element of the Hamiltonian at the reference
determinant). -/
theorem claim6_initial_state_and_hf_energy (H : Ham) (ref : List Bool)
    (ents : List PauliString) :
    runCircuit (initAngle ref)
        (construct_QMF_ansatz ref.length ++ construct_QCC_ansatz ents)
        (basisState 0) = basisState (refIdx ref ref.length) ∧
    (∀ q, (refIdx ref ref.length).testBit q = ref.getD q false) ∧
    energyOf ref.length H
        (runCircuit (initAngle ref)
          (construct_QMF_ansatz ref.length ++ construct_QCC_ansatz ents)
          (basisState 0)) = (hfEnergy H ref : ℂ) := by
  have hstate : runCircuit (initAngle ref)
      (construct_QMF_ansatz ref.length ++ construct_QCC_ansatz ents)
      (basisState 0) = basisState (refIdx ref ref.length) := by
    rw [runCircuit_append, runCircuit_mf_prepares, construct_QCC_ansatz,
      runCircuit_qccGates_zero (initAngle ref) (fun j => rfl)]
  have htest : ∀ q, (refIdx ref ref.length).testBit q = ref.getD q false := by
    intro q
    rw [testBit_refIdx]
    by_cases hq : q < ref.length
    · simp [hq]
    · have h1 : ref.getD q false = false := List.getD_eq_default _ _ (by omega)
      rw [decide_eq_false hq, Bool.false_and, h1]
  refine ⟨hstate, htest, ?_⟩
  rw [hstate, energyOf_basis _ _ _ (refIdx_lt ref ref.length), hfEnergy]
  have hcast : ((H.map fun t =>
      if flipIndices t.1 = [] then t.2 * diagSgn t.1 ref else 0).sum : ℂ) =
      (H.map fun t =>
        ((if flipIndices t.1 = [] then t.2 * diagSgn t.1 ref else 0 : ℚ) : ℂ)).sum := by
    have h := map_list_sum (Rat.castHom ℂ)
      (H.map fun t => if flipIndices t.1 = [] then t.2 * diagSgn t.1 ref else 0)
    rw [List.map_map] at h
    simp only [Rat.coe_castHom] at h
    exact h
  rw [hcast]
  refine congrArg List.sum ?_
  refine List.map_congr_left ?_
  intro t _
  by_cases hd : flipIndices t.1 = []
  · have hm : psMask t.1 0 = 0 := (psMask_eq_zero_iff t.1 0).2 (by rwa [flipIndices] at hd)
    rw [if_pos hm, if_pos hd]
    rw [psPhase_diag ref (refIdx ref ref.length) htest t.1 0 (by rwa [flipIndices] at hd)]
    rw [diagSgn]
    push_cast
    ring
  · have hm : psMask t.1 0 ≠ 0 := by
      intro h
      exact hd (by rw [flipIndices]; exact (psMask_eq_zero_iff t.1 0).1 h)
    rw [if_neg hm, if_neg hd]
    simp
